import Mathlib

/-!
Verification of `cplxmodule/signal.py`.

The file shallowly embeds the two layers of `signal.py`
(`CplxMultichannelGainLayer` and `CplxProjectionGainLayer`) together with the
tensor-framework primitives they invoke: row-major tensors, `reshape` with one
inferred `-1` dimension, `unsqueeze(-2)`, right-aligned broadcasting multiply,
and concatenation along the trailing axis.  Tensors carry a shape and a flat
row-major data list over an arbitrary scalar type `α`; the layers only need
ring operations, so all theorems hold over any commutative ring (exact real
arithmetic included) and concrete witnesses instantiate `α := ℤ`.
-/

/-- A row-major tensor over scalar type `α`: a shape and flat data list.
The framework invariant `data.length = shape.prod` is stated where needed. -/
structure Tensor (α : Type) where
  shape : List Nat
  data : List α
deriving DecidableEq

/-- A `ComplexTensor`: ordered pair of real and imaginary tensors. -/
structure Cplx (α : Type) where
  re : Tensor α
  im : Tensor α
deriving DecidableEq

/-- Number of elements of a tensor, as torch computes it from the shape. -/
def Tensor.numel {α : Type} (t : Tensor α) : Nat := t.shape.prod

/-- Multi-index of flat position `k` in a row-major shape. -/
def multiIndexOf : List Nat → Nat → List Nat
  | [], _ => []
  | _ :: rest, k => k / rest.prod :: multiIndexOf rest (k % rest.prod)

/-- Flat position of a multi-index in a row-major shape. -/
def flatIndexOf : List Nat → List Nat → Nat
  | _ :: rest, i :: is => i * rest.prod + flatIndexOf rest is
  | _, _ => 0

/-- NumPy-style broadcast of two shapes given in reversed (innermost-first)
order: dimensions must agree or one of them must be `1`. -/
def broadcastDims : List Nat → List Nat → Option (List Nat)
  | [], ys => some ys
  | xs, [] => some xs
  | x :: xs, y :: ys =>
    match broadcastDims xs ys with
    | none => none
    | some rest =>
      if x = y then some (x :: rest)
      else if x = 1 then some (y :: rest)
      else if y = 1 then some (x :: rest)
      else none

/-- Broadcast of two shapes, aligned from the right. -/
def broadcastShape (a b : List Nat) : Option (List Nat) :=
  (broadcastDims a.reverse b.reverse).map List.reverse

/-- Value contributed by tensor `t` at flat position `k` of the broadcast
result shape `rshape`: broadcast (size-`1`) dimensions of `t` read index 0. -/
def Tensor.bget {α : Type} [Zero α] (t : Tensor α) (rshape : List Nat) (k : Nat) : α :=
  let idx := (multiIndexOf rshape k).drop (rshape.length - t.shape.length)
  let sel := List.zipWith (fun d i => if d = 1 then 0 else i) t.shape idx
  t.data.getD (flatIndexOf t.shape sel) 0

/-- Elementwise broadcasting product of two tensors (torch `*`). -/
def tmul {α : Type} [Mul α] [Zero α] (a b : Tensor α) : Option (Tensor α) :=
  match broadcastShape a.shape b.shape with
  | none => none
  | some s => some ⟨s, (List.range s.prod).map fun k => a.bget s k * b.bget s k⟩

/-- torch `t.reshape(*pre, -1, *post)`: the `-1` dimension is inferred as
`numel / (pre.prod * post.prod)`; the reshape raises (here: `none`) iff the
product of the known dimensions is zero or does not divide `numel`. -/
def reshapeInfer {α : Type} (t : Tensor α) (pre post : List Nat) : Option (Tensor α) :=
  let k := pre.prod * post.prod
  if k ≠ 0 ∧ k ∣ t.numel then some ⟨pre ++ t.numel / k :: post, t.data⟩ else none

/-- torch `t.unsqueeze(-2)`: insert a dimension of size 1 before the last. -/
def unsqueezeNeg2 {α : Type} (t : Tensor α) : Tensor α :=
  ⟨t.shape.dropLast ++ 1 :: t.shape.drop (t.shape.length - 1), t.data⟩

/-- torch `cat([a, b], dim=-1)`: concatenate along the trailing axis; all
leading dimensions must coincide. -/
def catLast {α : Type} [Zero α] (a b : Tensor α) : Option (Tensor α) :=
  match a.shape.getLast?, b.shape.getLast? with
  | some m, some nb =>
    if a.shape.dropLast = b.shape.dropLast then
      some ⟨a.shape.dropLast ++ [m + nb],
        (List.range (a.shape.dropLast.prod * (m + nb))).map fun k =>
          if k % (m + nb) < m then a.data.getD ((k / (m + nb)) * m + k % (m + nb)) 0
          else b.data.getD ((k / (m + nb)) * nb + (k % (m + nb) - m)) 0⟩
    else none
  | _, _ => none

/-- Modelled from the spec: `cplx_modulus` lives in `cplxmodule/cplx.py`,
which is not under `src/`; the spec defines it as the elementwise complex
modulus `sqrt(re² + im²)`.  The framework's elementwise square root is the
parameter `sqrt`. -/
def cplx_modulus {α : Type} [Add α] [Mul α] (sqrt : α → α) (z : Cplx α) : Tensor α :=
  ⟨z.re.shape, List.zipWith (fun a b => sqrt (a * a + b * b)) z.re.data z.im.data⟩

/-- The errors `CplxMultichannelGainLayer.forward` can raise.  `gainShape`
is the `ValueError` of `signal.py`, which reports the trailing shape of the
gain tensor (past the `head` prefix) and the expected feature count. -/
inductive LayerError where
  | gainShape (tail : List Nat) (nFeatures : Nat)
  | runtime (msg : String)
deriving DecidableEq

/-- The multichannel gain layer: an injected gain callable and the
immutable `flatten` flag, exactly the state `__init__` stores. -/
structure CplxMultichannelGainLayer (α : Type) where
  gain : Tensor α → Tensor α
  flatten : Bool

/-- `CplxMultichannelGainLayer.forward` from `signal.py`: compute the gain on
the modulus, reshape it to `(*head, -1, n_features)` (translating a reshape
failure into the `ValueError`-style `gainShape` error), broadcast-multiply
against the unsqueezed parts, and optionally flatten. -/
def CplxMultichannelGainLayer.forward {α : Type} [Add α] [Mul α] [Zero α] (sqrt : α → α)
    (self : CplxMultichannelGainLayer α) (input : Cplx α) : Except LayerError (Cplx α) :=
  let re := input.re
  let im := input.im
  let g0 := self.gain (cplx_modulus sqrt input)
  match re.shape.getLast? with
  | none => .error (.runtime "not enough values to unpack")
  | some nFeatures =>
    let head := re.shape.dropLast
    match reshapeInfer g0 head [nFeatures] with
    | none => .error (.gainShape (g0.shape.drop head.length) nFeatures)
    | some g =>
      match tmul g (unsqueezeNeg2 re), tmul g (unsqueezeNeg2 im) with
      | some re2, some im2 =>
        if self.flatten then
          match reshapeInfer re2 head [], reshapeInfer im2 head [] with
          | some re3, some im3 => .ok ⟨re3, im3⟩
          | _, _ => .error (.runtime "flatten reshape failed")
        else .ok ⟨re2, im2⟩
      | _, _ => .error (.runtime "broadcast multiply failed")

/-- The projection gain layer: gain callable plus projection collaborator;
its inherited multichannel layer always has `flatten = true`. -/
structure CplxProjectionGainLayer (α : Type) where
  gain : Tensor α → Tensor α
  projection : Cplx α → Cplx α

/-- `CplxProjectionGainLayer.__init__`.  Modelled from the spec:
`is_cplx_to_cplx` lives in `cplxmodule/utils.py`, which is not under `src/`;
the spec describes it as an external complex-to-complex capability check, so
it is taken as the abstract predicate parameter `chk`.  A failed `assert`
aborts construction (`none`); otherwise the collaborators are stored. -/
def CplxProjectionGainLayer.init {α : Type} (chk : (Cplx α → Cplx α) → Bool)
    (gain : Tensor α → Tensor α) (projection : Cplx α → Cplx α) :
    Option (CplxProjectionGainLayer α) :=
  if chk projection then some ⟨gain, projection⟩ else none

/-- `CplxProjectionGainLayer.forward` from `signal.py`: run the parent layer
(with `flatten = true`), concatenate gain-modulated parts with the original
parts along the trailing axis (gain-modulated first), then delegate to the
projection collaborator. -/
def CplxProjectionGainLayer.forward {α : Type} [Add α] [Mul α] [Zero α] (sqrt : α → α)
    (self : CplxProjectionGainLayer α) (input : Cplx α) : Except LayerError (Cplx α) :=
  match CplxMultichannelGainLayer.forward sqrt ⟨self.gain, true⟩ input with
  | .error e => .error e
  | .ok gm =>
    match catLast gm.re input.re, catLast gm.im input.im with
    | some re, some im => .ok (self.projection ⟨re, im⟩)
    | _, _ => .error (.runtime "cat failed")

/-! ### Index arithmetic for the row-major embedding -/

lemma flat_guard_roundtrip (s : List Nat) (k : Nat) (hk : k < s.prod) :
    flatIndexOf s (List.zipWith (fun d i => if d = 1 then 0 else i) s (multiIndexOf s k)) = k := by
  induction s generalizing k with
  | nil =>
    simp only [List.prod_nil, Nat.lt_one_iff] at hk
    simp [multiIndexOf, flatIndexOf, hk]
  | cons d rest ih =>
    have hP : rest.prod ≠ 0 := by
      intro h0
      rw [List.prod_cons, h0, Nat.mul_zero] at hk
      exact Nat.not_lt_zero k hk
    have hmod : k % rest.prod < rest.prod := Nat.mod_lt _ (Nat.pos_of_ne_zero hP)
    simp only [multiIndexOf, List.zipWith, flatIndexOf]
    rw [ih _ hmod]
    by_cases hd1 : d = 1
    · subst hd1
      rw [List.prod_cons, Nat.one_mul] at hk
      simp [Nat.div_eq_of_lt hk, Nat.mod_eq_of_lt hk]
    · simp only [hd1, if_false]
      exact Nat.div_add_mod' k rest.prod

lemma flat_unsq (hd : List Nat) (C n : Nat) : ∀ k, k < (hd ++ [C, n]).prod →
    flatIndexOf (hd ++ [1, n]) (List.zipWith (fun d i => if d = 1 then 0 else i)
      (hd ++ [1, n]) (multiIndexOf (hd ++ [C, n]) k)) = k / (C * n) * n + k % n := by
  induction hd with
  | nil =>
    intro k hk
    simp only [List.nil_append, List.prod_cons, List.prod_nil, Nat.mul_one] at hk
    have hdiv : k / (C * n) = 0 := Nat.div_eq_of_lt hk
    simp only [List.nil_append, multiIndexOf, List.prod_cons, List.prod_nil, Nat.mul_one,
      List.zipWith, flatIndexOf, if_pos rfl, Nat.div_one, Nat.zero_mul, Nat.zero_add, hdiv]
    by_cases hn : n = 1
    · subst hn; simp [Nat.mod_one]
    · simp [hn]
  | cons d tl ih =>
    intro k hk
    rw [List.cons_append, List.prod_cons] at hk
    set P := (tl ++ [C, n]).prod with hPdef
    have hProd : P ≠ 0 := by
      intro h0
      rw [h0, Nat.mul_zero] at hk
      exact Nat.not_lt_zero k hk
    have hPfactor : P = tl.prod * (C * n) := by
      rw [hPdef, List.prod_append, List.prod_cons, List.prod_cons, List.prod_nil, Nat.mul_one]
    have hCn : 0 < C * n := by
      rcases Nat.eq_zero_or_pos (C * n) with h0 | h
      · exact absurd (by rw [hPfactor, h0, Nat.mul_zero]) hProd
      · exact h
    have hmod : k % P < P := Nat.mod_lt _ (Nat.pos_of_ne_zero hProd)
    have hQ : (tl ++ [1, n]).prod = tl.prod * n := by
      rw [List.prod_append, List.prod_cons, List.prod_cons, List.prod_nil, Nat.mul_one, Nat.one_mul]
    have e1 : k % P % n = k % n := by
      apply Nat.mod_mod_of_dvd
      rw [hPfactor]
      exact ⟨tl.prod * C, by ring⟩
    have e2 : k / (C * n) = tl.prod * (k / P) + k % P / (C * n) := by
      conv_lhs => rw [← Nat.div_add_mod k P]
      rw [show P * (k / P) + k % P = k % P + (C * n) * (tl.prod * (k / P)) by
        rw [hPfactor]; ring]
      rw [Nat.add_mul_div_left _ _ hCn, Nat.add_comm]
    have hif : (if d = 1 then 0 else k / P) = k / P := by
      by_cases hd1 : d = 1
      · subst hd1
        rw [Nat.one_mul] at hk
        simp [Nat.div_eq_of_lt hk]
      · simp [hd1]
    simp only [List.cons_append, multiIndexOf, List.zipWith, flatIndexOf, List.append_eq]
    rw [ih (k % P) hmod, hif, hQ, e1, e2]
    ring

/-! ### Characterizations of the tensor primitives -/

lemma Tensor.bget_self {α : Type} [Zero α] (t : Tensor α) (s : List Nat) (hs : t.shape = s)
    (k : Nat) (hk : k < s.prod) : t.bget s k = t.data.getD k 0 := by
  subst hs
  unfold Tensor.bget
  simp only [Nat.sub_self, List.drop_zero]
  rw [flat_guard_roundtrip t.shape k hk]

lemma Tensor.bget_unsq {α : Type} [Zero α] (b : Tensor α) (hd : List Nat) (C n : Nat)
    (hb : b.shape = hd ++ [1, n]) (k : Nat) (hk : k < (hd ++ [C, n]).prod) :
    b.bget (hd ++ [C, n]) k = b.data.getD (k / (C * n) * n + k % n) 0 := by
  unfold Tensor.bget
  rw [hb]
  have hlen : (hd ++ [C, n]).length - (hd ++ [1, n]).length = 0 := by simp
  simp only [hlen, List.drop_zero]
  rw [flat_unsq hd C n k hk]

lemma broadcastDims_self (l : List Nat) : broadcastDims l l = some l := by
  induction l with
  | nil => rfl
  | cons x xs ih => simp [broadcastDims, ih]

lemma broadcastDims_pattern (r : List Nat) (C n : Nat) :
    broadcastDims (n :: C :: r) (n :: 1 :: r) = some (n :: C :: r) := by
  by_cases hC : C = 1
  · subst hC
    simp [broadcastDims, broadcastDims_self r]
  · simp [broadcastDims, broadcastDims_self r, hC]

lemma broadcastShape_pattern (hd : List Nat) (C n : Nat) :
    broadcastShape (hd ++ [C, n]) (hd ++ [1, n]) = some (hd ++ [C, n]) := by
  unfold broadcastShape
  rw [show (hd ++ [C, n]).reverse = n :: C :: hd.reverse by simp,
      show (hd ++ [1, n]).reverse = n :: 1 :: hd.reverse by simp,
      broadcastDims_pattern]
  simp

/-- The flat data of the gain-modulated tensor: position `k` holds the gain
at `k` times the input value at feature position `(k / (C*n)) * n + k % n`. -/
def gainApplied {α : Type} [Mul α] [Zero α] (gd td : List α) (ph C n : Nat) : List α :=
  (List.range (ph * (C * n))).map fun k =>
    gd.getD k 0 * td.getD (k / (C * n) * n + k % n) 0

lemma tmul_pattern {α : Type} [Mul α] [Zero α] (hd : List Nat) (C n : Nat) (a b : Tensor α)
    (ha : a.shape = hd ++ [C, n]) (hb : b.shape = hd ++ [1, n]) :
    tmul a b = some ⟨hd ++ [C, n], gainApplied a.data b.data hd.prod C n⟩ := by
  unfold tmul
  rw [ha, hb, broadcastShape_pattern]
  have hprod : (hd ++ [C, n]).prod = hd.prod * (C * n) := by
    rw [List.prod_append, List.prod_cons, List.prod_cons, List.prod_nil, Nat.mul_one]
  simp only [Option.some.injEq, Tensor.mk.injEq, true_and]
  unfold gainApplied
  rw [hprod]
  apply List.map_congr_left
  intro k hkmem
  rw [List.mem_range] at hkmem
  have hklt : k < (hd ++ [C, n]).prod := by rw [hprod]; exact hkmem
  rw [Tensor.bget_self a _ ha k hklt, Tensor.bget_unsq b hd C n hb k hklt]

lemma unsqueezeNeg2_shape {α : Type} (t : Tensor α) (hd : List Nat) (n : Nat)
    (h : t.shape = hd ++ [n]) : (unsqueezeNeg2 t).shape = hd ++ [1, n] := by
  show t.shape.dropLast ++ 1 :: t.shape.drop (t.shape.length - 1) = hd ++ [1, n]
  rw [h, List.dropLast_concat]
  congr 1
  rw [show (hd ++ [n]).length - 1 = hd.length by simp]
  rw [List.drop_left]

lemma unsqueezeNeg2_data {α : Type} (t : Tensor α) : (unsqueezeNeg2 t).data = t.data := rfl

lemma reshapeInfer_pos {α : Type} (t : Tensor α) (pre post : List Nat)
    (h1 : pre.prod * post.prod ≠ 0) (h2 : pre.prod * post.prod ∣ t.numel) :
    reshapeInfer t pre post = some ⟨pre ++ t.numel / (pre.prod * post.prod) :: post, t.data⟩ := by
  unfold reshapeInfer
  rw [if_pos ⟨h1, h2⟩]

lemma reshapeInfer_neg {α : Type} (t : Tensor α) (pre post : List Nat)
    (h : ¬(pre.prod * post.prod ≠ 0 ∧ pre.prod * post.prod ∣ t.numel)) :
    reshapeInfer t pre post = none := by
  unfold reshapeInfer
  rw [if_neg h]

/-- Master evaluation lemma for `CplxMultichannelGainLayer.forward` on the
success path: inputs of shape `hd ++ [n]`, a gain whose output has
`hd.prod * C * n` elements, and `hd.prod * n ≠ 0`. -/
theorem forward_ok {α : Type} [Add α] [Mul α] [Zero α] (sqrt : α → α)
    (g : Tensor α → Tensor α) (fl : Bool) (hd : List Nat) (n C : Nat) (input : Cplx α)
    (hre : input.re.shape = hd ++ [n]) (him : input.im.shape = hd ++ [n])
    (hk : hd.prod * n ≠ 0)
    (hC : (g (cplx_modulus sqrt input)).numel = hd.prod * (C * n)) :
    CplxMultichannelGainLayer.forward sqrt ⟨g, fl⟩ input =
      .ok ⟨⟨if fl then hd ++ [C * n] else hd ++ [C, n],
            gainApplied (g (cplx_modulus sqrt input)).data input.re.data hd.prod C n⟩,
           ⟨if fl then hd ++ [C * n] else hd ++ [C, n],
            gainApplied (g (cplx_modulus sqrt input)).data input.im.data hd.prod C n⟩⟩ := by
  have hph : hd.prod ≠ 0 := fun h0 => hk (by rw [h0, Nat.zero_mul])
  have hsingle : ([n] : List Nat).prod = n := by simp
  have hdivC : (g (cplx_modulus sqrt input)).numel / (hd.prod * ([n] : List Nat).prod) = C := by
    rw [hsingle, hC, show hd.prod * (C * n) = hd.prod * n * C by ring]
    exact Nat.mul_div_cancel_left C (Nat.pos_of_ne_zero hk)
  have hresh : reshapeInfer (g (cplx_modulus sqrt input)) hd [n] =
      some ⟨hd ++ [C, n], (g (cplx_modulus sqrt input)).data⟩ := by
    rw [reshapeInfer_pos _ _ _ (by rw [hsingle]; exact hk)
      (by rw [hsingle, hC]; exact ⟨C, by ring⟩), hdivC]
  have hmulre := tmul_pattern hd C n (⟨hd ++ [C, n], (g (cplx_modulus sqrt input)).data⟩ : Tensor α)
    (unsqueezeNeg2 input.re) rfl (unsqueezeNeg2_shape input.re hd n hre)
  have hmulim := tmul_pattern hd C n (⟨hd ++ [C, n], (g (cplx_modulus sqrt input)).data⟩ : Tensor α)
    (unsqueezeNeg2 input.im) rfl (unsqueezeNeg2_shape input.im hd n him)
  rw [unsqueezeNeg2_data] at hmulre hmulim
  have hflat : reshapeInfer (⟨hd ++ [C, n],
      gainApplied (g (cplx_modulus sqrt input)).data input.re.data hd.prod C n⟩ : Tensor α) hd [] =
      some ⟨hd ++ [C * n],
        gainApplied (g (cplx_modulus sqrt input)).data input.re.data hd.prod C n⟩ := by
    have hnumel : (⟨hd ++ [C, n],
        gainApplied (g (cplx_modulus sqrt input)).data input.re.data hd.prod C n⟩ : Tensor α).numel
        = hd.prod * (C * n) := by
      show (hd ++ [C, n]).prod = hd.prod * (C * n)
      rw [List.prod_append, List.prod_cons, List.prod_cons, List.prod_nil, Nat.mul_one]
    rw [reshapeInfer_pos _ _ _ (by simp [hph]) (by rw [hnumel]; simp)]
    congr 1
    rw [hnumel]
    congr 1
    rw [show hd.prod * (([] : List Nat)).prod = hd.prod * 1 by simp, Nat.mul_one,
      Nat.mul_div_cancel_left _ (Nat.pos_of_ne_zero hph)]
  have hflatim : reshapeInfer (⟨hd ++ [C, n],
      gainApplied (g (cplx_modulus sqrt input)).data input.im.data hd.prod C n⟩ : Tensor α) hd [] =
      some ⟨hd ++ [C * n],
        gainApplied (g (cplx_modulus sqrt input)).data input.im.data hd.prod C n⟩ := by
    have hnumel : (⟨hd ++ [C, n],
        gainApplied (g (cplx_modulus sqrt input)).data input.im.data hd.prod C n⟩ : Tensor α).numel
        = hd.prod * (C * n) := by
      show (hd ++ [C, n]).prod = hd.prod * (C * n)
      rw [List.prod_append, List.prod_cons, List.prod_cons, List.prod_nil, Nat.mul_one]
    rw [reshapeInfer_pos _ _ _ (by simp [hph]) (by rw [hnumel]; simp)]
    congr 1
    rw [hnumel]
    congr 1
    rw [show hd.prod * (([] : List Nat)).prod = hd.prod * 1 by simp, Nat.mul_one,
      Nat.mul_div_cancel_left _ (Nat.pos_of_ne_zero hph)]
  unfold CplxMultichannelGainLayer.forward
  simp only [hre, List.getLast?_concat, List.dropLast_concat, hresh, hmulre, hmulim]
  cases fl with
  | false => simp
  | true => simp only [hflat, hflatim]; simp

/-- Master evaluation lemma for the failure path: when the product of the
known reshape dimensions is zero or does not divide the gain's element count,
`forward` raises the `ValueError`-style error carrying the trailing shape of
the gain tensor and the expected feature count. -/
theorem forward_err {α : Type} [Add α] [Mul α] [Zero α] (sqrt : α → α)
    (g : Tensor α → Tensor α) (fl : Bool) (hd : List Nat) (n : Nat) (input : Cplx α)
    (hre : input.re.shape = hd ++ [n])
    (hfail : ¬(hd.prod * n ≠ 0 ∧ hd.prod * n ∣ (g (cplx_modulus sqrt input)).numel)) :
    CplxMultichannelGainLayer.forward sqrt ⟨g, fl⟩ input =
      .error (.gainShape ((g (cplx_modulus sqrt input)).shape.drop hd.length) n) := by
  have hsingle : ([n] : List Nat).prod = n := by simp
  have hneg : reshapeInfer (g (cplx_modulus sqrt input)) hd [n] = none := by
    apply reshapeInfer_neg
    rw [hsingle]
    exact hfail
  unfold CplxMultichannelGainLayer.forward
  simp only [hre, List.getLast?_concat, List.dropLast_concat, hneg]

/-- The flat data of `catLast a b` for per-position widths `m` and `nb`. -/
def catData {α : Type} [Zero α] (ad bd : List α) (ph m nb : Nat) : List α :=
  (List.range (ph * (m + nb))).map fun k =>
    if k % (m + nb) < m then ad.getD ((k / (m + nb)) * m + k % (m + nb)) 0
    else bd.getD ((k / (m + nb)) * nb + (k % (m + nb) - m)) 0

lemma catLast_pattern {α : Type} [Zero α] (hd : List Nat) (m nb : Nat) (a b : Tensor α)
    (ha : a.shape = hd ++ [m]) (hb : b.shape = hd ++ [nb]) :
    catLast a b = some ⟨hd ++ [m + nb], catData a.data b.data hd.prod m nb⟩ := by
  unfold catLast
  rw [ha, hb]
  simp only [List.getLast?_concat, List.dropLast_concat, if_pos rfl]
  rfl

lemma getD_range_map {β : Type} (f : Nat → β) (N k : Nat) (d : β) (hk : k < N) :
    ((List.range N).map f).getD k d = f k := by
  rw [List.getD_eq_getElem?_getD, List.getElem?_map, List.getElem?_range hk]
  rfl

/-! ### Block-index arithmetic -/

lemma two_level_lt (p t ph M : Nat) (hp : p < ph) (ht : t < M) : p * M + t < ph * M := by
  calc p * M + t < p * M + M := by omega
    _ = (p + 1) * M := by ring
    _ ≤ ph * M := Nat.mul_le_mul_right M hp

lemma div_of_block (p t M : Nat) (ht : t < M) : (p * M + t) / M = p := by
  have hM : 0 < M := Nat.pos_of_ne_zero (by omega)
  rw [show p * M + t = t + M * p by ring, Nat.add_mul_div_left _ _ hM,
    Nat.div_eq_of_lt ht, Nat.zero_add]

lemma modM_of_block (p t M : Nat) (ht : t < M) : (p * M + t) % M = t := by
  rw [show p * M + t = t + p * M by ring, Nat.add_mul_mod_self_right, Nat.mod_eq_of_lt ht]

lemma mod_n_of_block (p c j C n : Nat) (hj : j < n) : (p * (C * n) + (c * n + j)) % n = j := by
  rw [show p * (C * n) + (c * n + j) = j + (p * C + c) * n by ring,
    Nat.add_mul_mod_self_right, Nat.mod_eq_of_lt hj]

lemma gainApplied_getD {α : Type} [Mul α] [Zero α] (gd td : List α) (ph C n p c j : Nat)
    (hp : p < ph) (hc : c < C) (hj : j < n) :
    (gainApplied gd td ph C n).getD (p * (C * n) + (c * n + j)) 0 =
      gd.getD (p * (C * n) + (c * n + j)) 0 * td.getD (p * n + j) 0 := by
  have htlt : c * n + j < C * n := two_level_lt c j C n hc hj
  have hklt : p * (C * n) + (c * n + j) < ph * (C * n) := two_level_lt p _ ph _ hp htlt
  unfold gainApplied
  rw [getD_range_map _ _ _ _ hklt, div_of_block p _ _ htlt, mod_n_of_block p c j C n hj]

lemma catData_getD_left {α : Type} [Zero α] (ad bd : List α) (ph m nb p t : Nat)
    (hp : p < ph) (ht : t < m) :
    (catData ad bd ph m nb).getD (p * (m + nb) + t) 0 = ad.getD (p * m + t) 0 := by
  have h1 : t < m + nb := Nat.lt_of_lt_of_le ht (Nat.le_add_right m nb)
  have hklt := two_level_lt p t ph (m + nb) hp h1
  unfold catData
  rw [getD_range_map _ _ _ _ hklt, modM_of_block p t _ h1, div_of_block p t _ h1, if_pos ht]

lemma catData_getD_right {α : Type} [Zero α] (ad bd : List α) (ph m nb p j : Nat)
    (hp : p < ph) (hj : j < nb) :
    (catData ad bd ph m nb).getD (p * (m + nb) + (m + j)) 0 = bd.getD (p * nb + j) 0 := by
  have h1 : m + j < m + nb := by omega
  have hklt := two_level_lt p (m + j) ph (m + nb) hp h1
  unfold catData
  rw [getD_range_map _ _ _ _ hklt, modM_of_block _ _ _ h1, div_of_block _ _ _ h1,
    if_neg (by omega)]
  congr 2
  omega

lemma getD_replicate_one {α : Type} [One α] [Zero α] (N k : Nat) (hk : k < N) :
    (List.replicate N (1 : α)).getD k 0 = 1 := by
  rw [List.getD_eq_getElem?_getD, List.getElem?_replicate, if_pos hk]
  rfl

/-! ### Claim theorems -/

/-- C1 (amended): for inputs of shape `hd ++ [n]` with `n ≥ 1` and every head
dimension positive (`hd.prod ≠ 0`), and a gain whose output has exactly `C*n`
elements per head position (`C` positive), `forward` succeeds and returns
real and imaginary parts of shape `hd ++ [C, n]` when `flatten = false` and
`hd ++ [C*n]` when `flatten = true`. -/
theorem C1_shape_contract {α : Type} [Add α] [Mul α] [Zero α] (sqrt : α → α)
    (g : Tensor α → Tensor α) (fl : Bool) (hd : List Nat) (n C : Nat) (input : Cplx α)
    (hre : input.re.shape = hd ++ [n]) (him : input.im.shape = hd ++ [n])
    (hn : n ≠ 0) (hhd : hd.prod ≠ 0) (hCpos : 0 < C)
    (hC : (g (cplx_modulus sqrt input)).numel = hd.prod * (C * n)) :
    ∃ out : Cplx α, CplxMultichannelGainLayer.forward sqrt ⟨g, fl⟩ input = .ok out ∧
      out.re.shape = (if fl then hd ++ [C * n] else hd ++ [C, n]) ∧
      out.im.shape = (if fl then hd ++ [C * n] else hd ++ [C, n]) := by
  refine ⟨_, forward_ok sqrt g fl hd n C input hre him (Nat.mul_ne_zero hhd hn) hC, rfl, rfl⟩

/-- Witness for C1: `head = (2,)`, `n = 3`, `C = 2`, `flatten = false`. -/
theorem C1_shape_contract_witness :
    (((fun _ => (⟨[12], List.replicate 12 2⟩ : Tensor Int)) (cplx_modulus id
        (⟨⟨[2, 3], [1, 2, 3, 4, 5, 6]⟩, ⟨[2, 3], [6, 5, 4, 3, 2, 1]⟩⟩ : Cplx Int))).numel
      = ([2] : List Nat).prod * (2 * 3)) ∧
    (∃ out : Cplx Int,
      CplxMultichannelGainLayer.forward id ⟨fun _ => ⟨[12], List.replicate 12 2⟩, false⟩
        ⟨⟨[2, 3], [1, 2, 3, 4, 5, 6]⟩, ⟨[2, 3], [6, 5, 4, 3, 2, 1]⟩⟩ = .ok out ∧
      out.re.shape = (if false then [2] ++ [2 * 3] else [2] ++ [2, 3]) ∧
      out.im.shape = (if false then [2] ++ [2 * 3] else [2] ++ [2, 3])) :=
  ⟨rfl, C1_shape_contract id _ false [2] 3 2 _ rfl rfl (by decide) (by decide) (by decide) rfl⟩

/-- C1 counterexample: for `head = ()`, `n = 0`, the gain output has exactly
`C * n = 0` elements per head position for `C = 1`, yet `forward` raises the
shape error instead of returning parts of shape `(C, n)`: the reshape of the
gain to `(-1, 0)` is ambiguous. -/
theorem C1_counterexample :
    CplxMultichannelGainLayer.forward (α := Int) id
      ⟨fun _ => ⟨[0], []⟩, false⟩ ⟨⟨[0], []⟩, ⟨[0], []⟩⟩ =
      .error (.gainShape [0] 0) := rfl

/-- C5: whenever the gain output's element count cannot be written as
`hd.prod * C * n` for any integer `C` — it cannot be reshaped into
`(*head, C, n)` — `forward` raises the `ValueError`-kind `gainShape` error
carrying the trailing shape of the gain tensor (past the `head` prefix) and
the expected feature count `n`; being an equation about a pure function, the
same error results on every call with this gain function and input. -/
theorem C5_shape_error {α : Type} [Add α] [Mul α] [Zero α] (sqrt : α → α)
    (g : Tensor α → Tensor α) (fl : Bool) (hd : List Nat) (n : Nat) (input : Cplx α)
    (hre : input.re.shape = hd ++ [n])
    (hcannot : ¬ ∃ C : Nat, (g (cplx_modulus sqrt input)).numel = hd.prod * (C * n)) :
    CplxMultichannelGainLayer.forward sqrt ⟨g, fl⟩ input =
      .error (.gainShape ((g (cplx_modulus sqrt input)).shape.drop hd.length) n) := by
  apply forward_err sqrt g fl hd n input hre
  rintro ⟨hne, C, hdvd⟩
  exact hcannot ⟨C, by rw [hdvd]; ring⟩

/-- Witness for C5: a gain of 4 elements against `n = 3` raises
`gainShape (4,) 3`. -/
theorem C5_shape_error_witness :
    (¬ ∃ C : Nat, ((fun _ => (⟨[4], [1, 1, 1, 1]⟩ : Tensor Int)) (cplx_modulus id
        (⟨⟨[3], [1, 2, 3]⟩, ⟨[3], [0, 0, 0]⟩⟩ : Cplx Int))).numel
      = ([] : List Nat).prod * (C * 3)) ∧
    CplxMultichannelGainLayer.forward (α := Int) id
      ⟨fun _ => ⟨[4], [1, 1, 1, 1]⟩, false⟩ ⟨⟨[3], [1, 2, 3]⟩, ⟨[3], [0, 0, 0]⟩⟩ =
      .error (.gainShape [4] 3) := by
  have hcannot : ¬ ∃ C : Nat, ((fun _ => (⟨[4], [1, 1, 1, 1]⟩ : Tensor Int)) (cplx_modulus id
      (⟨⟨[3], [1, 2, 3]⟩, ⟨[3], [0, 0, 0]⟩⟩ : Cplx Int))).numel
      = ([] : List Nat).prod * (C * 3) := by
    rintro ⟨C, hC⟩
    simp only [Tensor.numel, List.prod_cons, List.prod_nil] at hC
    omega
  exact ⟨hcannot, C5_shape_error id _ false [] 3 _ rfl hcannot⟩

/-- C7: construction of the projection layer succeeds, storing the
collaborators, exactly when the complex-to-complex capability check passes;
when the check fails the assertion aborts construction, so no layer value
exists on which `forward` could ever be called. -/
theorem C7_capability_check {α : Type} (chk : (Cplx α → Cplx α) → Bool)
    (g : Tensor α → Tensor α) (p : Cplx α → Cplx α) :
    (chk p = false → CplxProjectionGainLayer.init chk g p = none) ∧
    (chk p = true → CplxProjectionGainLayer.init chk g p = some ⟨g, p⟩) := by
  constructor <;> intro h <;> simp [CplxProjectionGainLayer.init, h]

/-- Witness for C7: a rejecting check blocks construction, an accepting
check stores the collaborators. -/
theorem C7_capability_check_witness :
    (CplxProjectionGainLayer.init (α := Int) (fun _ => false) id id = none) ∧
    (CplxProjectionGainLayer.init (α := Int) (fun _ => true) id id = some ⟨id, id⟩) :=
  ⟨(C7_capability_check (fun _ => false) id id).1 rfl,
   (C7_capability_check (fun _ => true) id id).2 rfl⟩

/-- C8: both forward passes are pure functions of the collaborators and the
input: two layer values with equal collaborator fields applied to equal
inputs give equal results.  The embedding is state-free because `forward`
in the source never assigns to `self`. -/
theorem C8_stateless {α : Type} [Add α] [Mul α] [Zero α] (sqrt : α → α)
    (l1 l2 : CplxMultichannelGainLayer α) (q1 q2 : CplxProjectionGainLayer α)
    (x1 x2 y1 y2 : Cplx α)
    (hg : l1.gain = l2.gain) (hf : l1.flatten = l2.flatten) (hx : x1 = x2)
    (hqg : q1.gain = q2.gain) (hqp : q1.projection = q2.projection) (hy : y1 = y2) :
    CplxMultichannelGainLayer.forward sqrt l1 x1 = CplxMultichannelGainLayer.forward sqrt l2 x2 ∧
    CplxProjectionGainLayer.forward sqrt q1 y1 = CplxProjectionGainLayer.forward sqrt q2 y2 := by
  cases l1
  cases l2
  cases q1
  cases q2
  cases hg
  cases hf
  cases hx
  cases hqg
  cases hqp
  cases hy
  exact ⟨rfl, rfl⟩

/-- Witness for C8: two syntactically distinct but equal-field layers agree. -/
theorem C8_stateless_witness :
    CplxMultichannelGainLayer.forward (α := Int) id ⟨fun t => t, false⟩
        ⟨⟨[2], [1, 2]⟩, ⟨[2], [0, 1]⟩⟩ =
      CplxMultichannelGainLayer.forward id ⟨fun t => t, false⟩ ⟨⟨[2], [1, 2]⟩, ⟨[2], [0, 1]⟩⟩ ∧
    CplxProjectionGainLayer.forward (α := Int) id ⟨fun t => t, fun z => z⟩
        ⟨⟨[2], [1, 2]⟩, ⟨[2], [0, 1]⟩⟩ =
      CplxProjectionGainLayer.forward id ⟨fun t => t, fun z => z⟩ ⟨⟨[2], [1, 2]⟩, ⟨[2], [0, 1]⟩⟩ :=
  C8_stateless id ⟨fun t => t, false⟩ ⟨fun t => t, false⟩ ⟨fun t => t, fun z => z⟩
    ⟨fun t => t, fun z => z⟩ _ _ _ _ rfl rfl rfl rfl rfl rfl

/-- C3 (amended): for inputs of shape `hd ++ [n]` with `n ≥ 1` and positive
head dimensions, if the gain returns a constant tensor of ones with
`hd.prod * C * n` elements, `forward` (with `flatten = false`) returns the
input broadcast-repeated `C` times along the inserted channel axis: flat
position `k` of each part holds the input value at feature position
`(k / (C*n)) * n + k % n`, unchanged. -/
theorem C3_identity_gain {α : Type} [Semiring α] (sqrt : α → α)
    (g : Tensor α → Tensor α) (hd : List Nat) (n C : Nat) (s0 : List Nat) (input : Cplx α)
    (hre : input.re.shape = hd ++ [n]) (him : input.im.shape = hd ++ [n])
    (hn : n ≠ 0) (hhd : hd.prod ≠ 0)
    (hg : g (cplx_modulus sqrt input) = ⟨s0, List.replicate (hd.prod * (C * n)) 1⟩)
    (hs0 : s0.prod = hd.prod * (C * n)) :
    CplxMultichannelGainLayer.forward sqrt ⟨g, false⟩ input =
      .ok ⟨⟨hd ++ [C, n], (List.range (hd.prod * (C * n))).map fun k =>
              input.re.data.getD (k / (C * n) * n + k % n) 0⟩,
           ⟨hd ++ [C, n], (List.range (hd.prod * (C * n))).map fun k =>
              input.im.data.getD (k / (C * n) * n + k % n) 0⟩⟩ := by
  have hC : (g (cplx_modulus sqrt input)).numel = hd.prod * (C * n) := by
    rw [hg]
    exact hs0
  have hdata : ∀ td : List α, gainApplied (g (cplx_modulus sqrt input)).data td hd.prod C n =
      (List.range (hd.prod * (C * n))).map fun k => td.getD (k / (C * n) * n + k % n) 0 := by
    intro td
    unfold gainApplied
    apply List.map_congr_left
    intro k hk
    rw [List.mem_range] at hk
    rw [hg]
    show (List.replicate (hd.prod * (C * n)) 1).getD k 0 * td.getD (k / (C * n) * n + k % n) 0 = _
    rw [getD_replicate_one _ _ hk, one_mul]
  rw [forward_ok sqrt g false hd n C input hre him (Nat.mul_ne_zero hhd hn) hC,
    hdata input.re.data, hdata input.im.data]
  simp

/-- Witness for C3: the spec's example `head = ()`, `n = 3`, `C = 2`, input
`re = [1,2,3]`, `im = [0,0,0]`, gain identically one; the output is the input
repeated over two channels, shapes `(2, 3)`. -/
theorem C3_identity_gain_witness :
    ((fun _ => (⟨[6], List.replicate 6 1⟩ : Tensor Int)) (cplx_modulus id
        (⟨⟨[3], [1, 2, 3]⟩, ⟨[3], [0, 0, 0]⟩⟩ : Cplx Int)) =
      ⟨[6], List.replicate (([] : List Nat).prod * (2 * 3)) 1⟩) ∧
    (CplxMultichannelGainLayer.forward id ⟨fun _ => ⟨[6], List.replicate 6 1⟩, false⟩
        (⟨⟨[3], [1, 2, 3]⟩, ⟨[3], [0, 0, 0]⟩⟩ : Cplx Int) =
      .ok ⟨⟨[] ++ [2, 3], (List.range (([] : List Nat).prod * (2 * 3))).map fun k =>
              ([1, 2, 3] : List Int).getD (k / (2 * 3) * 3 + k % 3) 0⟩,
           ⟨[] ++ [2, 3], (List.range (([] : List Nat).prod * (2 * 3))).map fun k =>
              ([0, 0, 0] : List Int).getD (k / (2 * 3) * 3 + k % 3) 0⟩⟩) ∧
    (CplxMultichannelGainLayer.forward id ⟨fun _ => ⟨[6], List.replicate 6 1⟩, false⟩
        (⟨⟨[3], [1, 2, 3]⟩, ⟨[3], [0, 0, 0]⟩⟩ : Cplx Int) =
      .ok ⟨⟨[2, 3], [1, 2, 3, 1, 2, 3]⟩, ⟨[2, 3], [0, 0, 0, 0, 0, 0]⟩⟩) :=
  ⟨rfl, C3_identity_gain id _ [] 3 2 [6] _ rfl rfl (by decide) (by decide) rfl rfl, rfl⟩

/-- C3 counterexample: for a zero-sized head dimension (`head = (0,)`,
`n = 3`) the gain returns the (empty) ones tensor of total size `C*n = 6`
per head position, yet `forward` raises the shape error instead of
returning the broadcast-repeated input: the reshape of a 0-element gain to
`(0, -1, 3)` is ambiguous. -/
theorem C3_counterexample :
    CplxMultichannelGainLayer.forward (α := Int) id
      ⟨fun _ => ⟨[0, 6], List.replicate 0 1⟩, false⟩ ⟨⟨[0, 3], []⟩, ⟨[0, 3], []⟩⟩ =
      .error (.gainShape [6] 3) := rfl

/-- C6: with a gain producing exactly `n` outputs per head position
(`C = 1`) on positive-sized inputs, the `flatten = true` and
`flatten = false` runs succeed with bitwise identical data; their shapes
differ only by merging the inserted channel axis (`hd ++ [1, n]` versus
`hd ++ [n]`), i.e. the two configurations compute the same values. -/
theorem C6_flatten_roundtrip {α : Type} [Add α] [Mul α] [Zero α] (sqrt : α → α)
    (g : Tensor α → Tensor α) (hd : List Nat) (n : Nat) (input : Cplx α)
    (hre : input.re.shape = hd ++ [n]) (him : input.im.shape = hd ++ [n])
    (hn : n ≠ 0) (hhd : hd.prod ≠ 0)
    (hg : (g (cplx_modulus sqrt input)).numel = hd.prod * n) :
    ∃ o1 o2 : Cplx α,
      CplxMultichannelGainLayer.forward sqrt ⟨g, false⟩ input = .ok o1 ∧
      CplxMultichannelGainLayer.forward sqrt ⟨g, true⟩ input = .ok o2 ∧
      o1.re.shape = hd ++ [1, n] ∧ o1.im.shape = hd ++ [1, n] ∧
      o2.re.shape = hd ++ [n] ∧ o2.im.shape = hd ++ [n] ∧
      o2.re.data = o1.re.data ∧ o2.im.data = o1.im.data := by
  have hC : (g (cplx_modulus sqrt input)).numel = hd.prod * (1 * n) := by
    rw [Nat.one_mul]
    exact hg
  refine ⟨_, _, forward_ok sqrt g false hd n 1 input hre him (Nat.mul_ne_zero hhd hn) hC,
    forward_ok sqrt g true hd n 1 input hre him (Nat.mul_ne_zero hhd hn) hC,
    ?_, ?_, ?_, ?_, rfl, rfl⟩ <;> simp

/-- Witness for C6: `head = ()`, `n = 2`, gain `[3, 4]`; both runs produce
data `[3, 8]` with shapes `(1, 2)` and `(2,)` respectively. -/
theorem C6_flatten_roundtrip_witness :
    (((fun _ => (⟨[2], [3, 4]⟩ : Tensor Int)) (cplx_modulus id
        (⟨⟨[2], [1, 2]⟩, ⟨[2], [5, 6]⟩⟩ : Cplx Int))).numel = ([] : List Nat).prod * 2) ∧
    (∃ o1 o2 : Cplx Int,
      CplxMultichannelGainLayer.forward id ⟨fun _ => ⟨[2], [3, 4]⟩, false⟩
        ⟨⟨[2], [1, 2]⟩, ⟨[2], [5, 6]⟩⟩ = .ok o1 ∧
      CplxMultichannelGainLayer.forward id ⟨fun _ => ⟨[2], [3, 4]⟩, true⟩
        ⟨⟨[2], [1, 2]⟩, ⟨[2], [5, 6]⟩⟩ = .ok o2 ∧
      o1.re.shape = [] ++ [1, 2] ∧ o1.im.shape = [] ++ [1, 2] ∧
      o2.re.shape = [] ++ [2] ∧ o2.im.shape = [] ++ [2] ∧
      o2.re.data = o1.re.data ∧ o2.im.data = o1.im.data) :=
  ⟨rfl, C6_flatten_roundtrip id _ [] 2 _ rfl rfl (by decide) (by decide) rfl⟩

/-- C9 (amended): the `gainShape` error is raised exactly when
`hd.prod * n` is zero or does not divide the gain output's element count;
whenever `hd.prod * n` is nonzero and divides it — leading dimensions of the
gain tensor notwithstanding — the gain is silently reshaped and `forward`
succeeds. -/
theorem C9_error_iff {α : Type} [Add α] [Mul α] [Zero α] (sqrt : α → α)
    (g : Tensor α → Tensor α) (fl : Bool) (hd : List Nat) (n : Nat) (input : Cplx α)
    (hre : input.re.shape = hd ++ [n]) (him : input.im.shape = hd ++ [n]) :
    ((hd.prod * n ≠ 0 ∧ hd.prod * n ∣ (g (cplx_modulus sqrt input)).numel) →
      ∃ out : Cplx α, CplxMultichannelGainLayer.forward sqrt ⟨g, fl⟩ input = .ok out) ∧
    (¬(hd.prod * n ≠ 0 ∧ hd.prod * n ∣ (g (cplx_modulus sqrt input)).numel) →
      CplxMultichannelGainLayer.forward sqrt ⟨g, fl⟩ input =
        .error (.gainShape ((g (cplx_modulus sqrt input)).shape.drop hd.length) n)) := by
  constructor
  · rintro ⟨hne, C, hCdvd⟩
    exact ⟨_, forward_ok sqrt g fl hd n C input hre him hne (by rw [hCdvd]; ring)⟩
  · intro h
    exact forward_err sqrt g fl hd n input hre h

/-- Witness for C9: the claim's own example `head = (2,)`, `n = 3`, gain of
shape `(3, 2)`: its 6 elements are divisible by `prod(head) * n = 6`, so the
gain is silently reshaped to `(2, 1, 3)` and `forward` succeeds, even though
the gain's leading dimension does not align with the head. -/
theorem C9_error_iff_witness :
    (([2] : List Nat).prod * 3 ≠ 0 ∧ ([2] : List Nat).prod * 3 ∣
      ((fun _ => (⟨[3, 2], [1, 2, 3, 4, 5, 6]⟩ : Tensor Int)) (cplx_modulus id
        (⟨⟨[2, 3], [1, 1, 1, 1, 1, 1]⟩, ⟨[2, 3], [0, 0, 0, 0, 0, 0]⟩⟩ : Cplx Int))).numel) ∧
    (∃ out : Cplx Int, CplxMultichannelGainLayer.forward id
        ⟨fun _ => ⟨[3, 2], [1, 2, 3, 4, 5, 6]⟩, false⟩
        ⟨⟨[2, 3], [1, 1, 1, 1, 1, 1]⟩, ⟨[2, 3], [0, 0, 0, 0, 0, 0]⟩⟩ = .ok out) ∧
    CplxMultichannelGainLayer.forward (α := Int) id
        ⟨fun _ => ⟨[3, 2], [1, 2, 3, 4, 5, 6]⟩, false⟩
        ⟨⟨[2, 3], [1, 1, 1, 1, 1, 1]⟩, ⟨[2, 3], [0, 0, 0, 0, 0, 0]⟩⟩ =
      .ok ⟨⟨[2, 1, 3], [1, 2, 3, 4, 5, 6]⟩, ⟨[2, 1, 3], [0, 0, 0, 0, 0, 0]⟩⟩ :=
  ⟨⟨by decide, by decide⟩,
   (C9_error_iff id _ false [2] 3 _ rfl rfl).1 ⟨by decide, by decide⟩, rfl⟩

/-- C9 counterexample: for `head = (0,)`, `n = 3`, the gain's total element
count (0) is divisible by `prod(head) * n = 0`, yet `forward` raises the
shape error rather than silently reshaping: divisibility alone does not
characterize the error, the product must also be nonzero. -/
theorem C9_counterexample :
    (([0] : List Nat).prod * 3 ∣
      ((fun _ => (⟨[0, 3], []⟩ : Tensor Int)) (cplx_modulus id
        (⟨⟨[0, 3], []⟩, ⟨[0, 3], []⟩⟩ : Cplx Int))).numel) ∧
    CplxMultichannelGainLayer.forward (α := Int) id
      ⟨fun _ => ⟨[0, 3], []⟩, false⟩ ⟨⟨[0, 3], []⟩, ⟨[0, 3], []⟩⟩ =
      .error (.gainShape [3] 3) :=
  ⟨⟨0, rfl⟩, rfl⟩

/-- C4: on the success path, each entry of the output at head position `p`,
channel `c`, feature `j` is the input complex value at `(p, j)` multiplied by
the single real gain value of channel `c` at that position: the real and
imaginary parts are scaled by the same factor, so no rotation occurs. -/
theorem C4_same_real_factor {α : Type} [Add α] [Mul α] [Zero α] (sqrt : α → α)
    (g : Tensor α → Tensor α) (hd : List Nat) (n C : Nat) (input : Cplx α)
    (hre : input.re.shape = hd ++ [n]) (him : input.im.shape = hd ++ [n])
    (hn : n ≠ 0) (hhd : hd.prod ≠ 0)
    (hC : (g (cplx_modulus sqrt input)).numel = hd.prod * (C * n)) :
    ∃ out : Cplx α, CplxMultichannelGainLayer.forward sqrt ⟨g, false⟩ input = .ok out ∧
      ∀ p c j, p < hd.prod → c < C → j < n →
        out.re.data.getD (p * (C * n) + (c * n + j)) 0 =
          (g (cplx_modulus sqrt input)).data.getD (p * (C * n) + (c * n + j)) 0 *
            input.re.data.getD (p * n + j) 0 ∧
        out.im.data.getD (p * (C * n) + (c * n + j)) 0 =
          (g (cplx_modulus sqrt input)).data.getD (p * (C * n) + (c * n + j)) 0 *
            input.im.data.getD (p * n + j) 0 := by
  refine ⟨_, forward_ok sqrt g false hd n C input hre him (Nat.mul_ne_zero hhd hn) hC, ?_⟩
  intro p c j hp hc hj
  exact ⟨gainApplied_getD _ _ hd.prod C n p c j hp hc hj,
    gainApplied_getD _ _ hd.prod C n p c j hp hc hj⟩

/-- Witness for C4: `head = ()`, `n = 2`, `C = 2`, gain `[2, 3, 4, 5]`,
input `re = [1, 2]`, `im = [10, 20]`. -/
theorem C4_same_real_factor_witness :
    (((fun _ => (⟨[4], [2, 3, 4, 5]⟩ : Tensor Int)) (cplx_modulus id
        (⟨⟨[2], [1, 2]⟩, ⟨[2], [10, 20]⟩⟩ : Cplx Int))).numel
      = ([] : List Nat).prod * (2 * 2)) ∧
    (∃ out : Cplx Int, CplxMultichannelGainLayer.forward id
        ⟨fun _ => ⟨[4], [2, 3, 4, 5]⟩, false⟩ ⟨⟨[2], [1, 2]⟩, ⟨[2], [10, 20]⟩⟩ = .ok out ∧
      ∀ p c j, p < ([] : List Nat).prod → c < 2 → j < 2 →
        out.re.data.getD (p * (2 * 2) + (c * 2 + j)) 0 =
          ((fun _ => (⟨[4], [2, 3, 4, 5]⟩ : Tensor Int)) (cplx_modulus id
            (⟨⟨[2], [1, 2]⟩, ⟨[2], [10, 20]⟩⟩ : Cplx Int))).data.getD (p * (2 * 2) + (c * 2 + j)) 0 *
            ([1, 2] : List Int).getD (p * 2 + j) 0 ∧
        out.im.data.getD (p * (2 * 2) + (c * 2 + j)) 0 =
          ((fun _ => (⟨[4], [2, 3, 4, 5]⟩ : Tensor Int)) (cplx_modulus id
            (⟨⟨[2], [1, 2]⟩, ⟨[2], [10, 20]⟩⟩ : Cplx Int))).data.getD (p * (2 * 2) + (c * 2 + j)) 0 *
            ([10, 20] : List Int).getD (p * 2 + j) 0) :=
  ⟨rfl, C4_same_real_factor id _ [] 2 2 _ rfl rfl (by decide) (by decide) rfl⟩

/-- C10: with `flatten = true` the output is laid out channel-major — the
entry at flat trailing offset `c*n + j` of head position `p` is the gain of
channel `c` at feature `j` times the input value at feature `j` — and the
subsequent `ProjectionGain` concatenation places the `C` gain-modulated
blocks of `n` features first and the original input block last, for the
real and the imaginary part alike. -/
theorem C10_flattened_layout {α : Type} [Add α] [Mul α] [Zero α] (sqrt : α → α)
    (g : Tensor α → Tensor α) (hd : List Nat) (n C : Nat) (input : Cplx α)
    (hre : input.re.shape = hd ++ [n]) (him : input.im.shape = hd ++ [n])
    (hn : n ≠ 0) (hhd : hd.prod ≠ 0)
    (hC : (g (cplx_modulus sqrt input)).numel = hd.prod * (C * n)) :
    ∃ out : Cplx α, CplxMultichannelGainLayer.forward sqrt ⟨g, true⟩ input = .ok out ∧
      out.re.shape = hd ++ [C * n] ∧ out.im.shape = hd ++ [C * n] ∧
      (∀ p c j, p < hd.prod → c < C → j < n →
        out.re.data.getD (p * (C * n) + (c * n + j)) 0 =
          (g (cplx_modulus sqrt input)).data.getD (p * (C * n) + (c * n + j)) 0 *
            input.re.data.getD (p * n + j) 0 ∧
        out.im.data.getD (p * (C * n) + (c * n + j)) 0 =
          (g (cplx_modulus sqrt input)).data.getD (p * (C * n) + (c * n + j)) 0 *
            input.im.data.getD (p * n + j) 0) ∧
      ∃ cre cim : Tensor α,
        catLast out.re input.re = some cre ∧ catLast out.im input.im = some cim ∧
        (∀ p c j, p < hd.prod → c < C → j < n →
          cre.data.getD (p * (C * n + n) + (c * n + j)) 0 =
            out.re.data.getD (p * (C * n) + (c * n + j)) 0 ∧
          cim.data.getD (p * (C * n + n) + (c * n + j)) 0 =
            out.im.data.getD (p * (C * n) + (c * n + j)) 0) ∧
        (∀ p j, p < hd.prod → j < n →
          cre.data.getD (p * (C * n + n) + (C * n + j)) 0 =
            input.re.data.getD (p * n + j) 0 ∧
          cim.data.getD (p * (C * n + n) + (C * n + j)) 0 =
            input.im.data.getD (p * n + j) 0) := by
  refine ⟨_, forward_ok sqrt g true hd n C input hre him (Nat.mul_ne_zero hhd hn) hC,
    rfl, rfl, ?_, ?_⟩
  · intro p c j hp hc hj
    exact ⟨gainApplied_getD _ _ hd.prod C n p c j hp hc hj,
      gainApplied_getD _ _ hd.prod C n p c j hp hc hj⟩
  · refine ⟨_, _, catLast_pattern hd (C * n) n _ input.re rfl hre,
      catLast_pattern hd (C * n) n _ input.im rfl him, ?_, ?_⟩
    · intro p c j hp hc hj
      have ht : c * n + j < C * n := two_level_lt c j C n hc hj
      exact ⟨catData_getD_left _ _ hd.prod (C * n) n p _ hp ht,
        catData_getD_left _ _ hd.prod (C * n) n p _ hp ht⟩
    · intro p j hp hj
      exact ⟨catData_getD_right _ _ hd.prod (C * n) n p j hp hj,
        catData_getD_right _ _ hd.prod (C * n) n p j hp hj⟩

/-- Witness for C10: `head = ()`, `n = 2`, `C = 2`, gain `[2, 3, 4, 5]`,
input `re = [1, 2]`, `im = [10, 20]`, flattened and concatenated. -/
theorem C10_flattened_layout_witness :
    (((fun _ => (⟨[4], [2, 3, 4, 5]⟩ : Tensor Int)) (cplx_modulus id
        (⟨⟨[2], [1, 2]⟩, ⟨[2], [10, 20]⟩⟩ : Cplx Int))).numel
      = ([] : List Nat).prod * (2 * 2)) ∧
    (∃ out : Cplx Int, CplxMultichannelGainLayer.forward id
        ⟨fun _ => ⟨[4], [2, 3, 4, 5]⟩, true⟩ ⟨⟨[2], [1, 2]⟩, ⟨[2], [10, 20]⟩⟩ = .ok out ∧
      out.re.shape = [] ++ [2 * 2] ∧ out.im.shape = [] ++ [2 * 2] ∧
      (∀ p c j, p < ([] : List Nat).prod → c < 2 → j < 2 →
        out.re.data.getD (p * (2 * 2) + (c * 2 + j)) 0 =
          ((fun _ => (⟨[4], [2, 3, 4, 5]⟩ : Tensor Int)) (cplx_modulus id
            (⟨⟨[2], [1, 2]⟩, ⟨[2], [10, 20]⟩⟩ : Cplx Int))).data.getD (p * (2 * 2) + (c * 2 + j)) 0 *
            ([1, 2] : List Int).getD (p * 2 + j) 0 ∧
        out.im.data.getD (p * (2 * 2) + (c * 2 + j)) 0 =
          ((fun _ => (⟨[4], [2, 3, 4, 5]⟩ : Tensor Int)) (cplx_modulus id
            (⟨⟨[2], [1, 2]⟩, ⟨[2], [10, 20]⟩⟩ : Cplx Int))).data.getD (p * (2 * 2) + (c * 2 + j)) 0 *
            ([10, 20] : List Int).getD (p * 2 + j) 0) ∧
      ∃ cre cim : Tensor Int,
        catLast out.re (⟨[2], [1, 2]⟩ : Tensor Int) = some cre ∧
        catLast out.im (⟨[2], [10, 20]⟩ : Tensor Int) = some cim ∧
        (∀ p c j, p < ([] : List Nat).prod → c < 2 → j < 2 →
          cre.data.getD (p * (2 * 2 + 2) + (c * 2 + j)) 0 =
            out.re.data.getD (p * (2 * 2) + (c * 2 + j)) 0 ∧
          cim.data.getD (p * (2 * 2 + 2) + (c * 2 + j)) 0 =
            out.im.data.getD (p * (2 * 2) + (c * 2 + j)) 0) ∧
        (∀ p j, p < ([] : List Nat).prod → j < 2 →
          cre.data.getD (p * (2 * 2 + 2) + (2 * 2 + j)) 0 =
            ([1, 2] : List Int).getD (p * 2 + j) 0 ∧
          cim.data.getD (p * (2 * 2 + 2) + (2 * 2 + j)) 0 =
            ([10, 20] : List Int).getD (p * 2 + j) 0)) :=
  ⟨rfl, C10_flattened_layout id _ [] 2 2 _ rfl rfl (by decide) (by decide) rfl⟩

/-- C2: the projection layer runs the internal multichannel layer (with
`flatten = true`), concatenates — independently for the real and the
imaginary part — the gain-modulated tensor first and the original input
second along the trailing axis, obtaining shape `hd ++ [(C+1)*n]`, and
returns exactly the projection collaborator applied to that concatenated
complex tensor, unmodified. -/
theorem C2_concat_project {α : Type} [Add α] [Mul α] [Zero α] (sqrt : α → α)
    (g : Tensor α → Tensor α) (proj : Cplx α → Cplx α) (hd : List Nat) (n C : Nat)
    (input : Cplx α)
    (hre : input.re.shape = hd ++ [n]) (him : input.im.shape = hd ++ [n])
    (hn : n ≠ 0) (hhd : hd.prod ≠ 0)
    (hC : (g (cplx_modulus sqrt input)).numel = hd.prod * (C * n)) :
    ∃ (gm : Cplx α) (cre cim : Tensor α),
      CplxMultichannelGainLayer.forward sqrt ⟨g, true⟩ input = .ok gm ∧
      gm.re.shape = hd ++ [C * n] ∧ gm.im.shape = hd ++ [C * n] ∧
      catLast gm.re input.re = some cre ∧ catLast gm.im input.im = some cim ∧
      cre.shape = hd ++ [(C + 1) * n] ∧ cim.shape = hd ++ [(C + 1) * n] ∧
      CplxProjectionGainLayer.forward sqrt ⟨g, proj⟩ input = .ok (proj ⟨cre, cim⟩) := by
  have hfwd := forward_ok sqrt g true hd n C input hre him (Nat.mul_ne_zero hhd hn) hC
  have hcatre := catLast_pattern hd (C * n) n
    (⟨hd ++ [C * n], gainApplied (g (cplx_modulus sqrt input)).data input.re.data hd.prod C n⟩ :
      Tensor α) input.re rfl hre
  have hcatim := catLast_pattern hd (C * n) n
    (⟨hd ++ [C * n], gainApplied (g (cplx_modulus sqrt input)).data input.im.data hd.prod C n⟩ :
      Tensor α) input.im rfl him
  refine ⟨_, _, _, hfwd, rfl, rfl, hcatre, hcatim, ?_, ?_, ?_⟩
  · show hd ++ [C * n + n] = hd ++ [(C + 1) * n]
    rw [Nat.succ_mul]
  · show hd ++ [C * n + n] = hd ++ [(C + 1) * n]
    rw [Nat.succ_mul]
  · have hfwd2 : CplxMultichannelGainLayer.forward sqrt ⟨g, true⟩ input =
        .ok ⟨⟨hd ++ [C * n],
              gainApplied (g (cplx_modulus sqrt input)).data input.re.data hd.prod C n⟩,
             ⟨hd ++ [C * n],
              gainApplied (g (cplx_modulus sqrt input)).data input.im.data hd.prod C n⟩⟩ := hfwd
    unfold CplxProjectionGainLayer.forward
    simp only [hfwd2, hcatre, hcatim]

/-- Witness for C2: the spec's example — identity projection, `C = 1`, gain
identically one, input `re = [1, 2]` (here with `im = [5, 7]`) — yields
output `re = [1, 2, 1, 2]`: the concatenation of (gain-modulated, original)
fed through the identity projection. -/
theorem C2_concat_project_witness :
    (((fun _ => (⟨[2], [1, 1]⟩ : Tensor Int)) (cplx_modulus id
        (⟨⟨[2], [1, 2]⟩, ⟨[2], [5, 7]⟩⟩ : Cplx Int))).numel
      = ([] : List Nat).prod * (1 * 2)) ∧
    (∃ (gm : Cplx Int) (cre cim : Tensor Int),
      CplxMultichannelGainLayer.forward id ⟨fun _ => ⟨[2], [1, 1]⟩, true⟩
        ⟨⟨[2], [1, 2]⟩, ⟨[2], [5, 7]⟩⟩ = .ok gm ∧
      gm.re.shape = [] ++ [1 * 2] ∧ gm.im.shape = [] ++ [1 * 2] ∧
      catLast gm.re (⟨[2], [1, 2]⟩ : Tensor Int) = some cre ∧
      catLast gm.im (⟨[2], [5, 7]⟩ : Tensor Int) = some cim ∧
      cre.shape = [] ++ [(1 + 1) * 2] ∧ cim.shape = [] ++ [(1 + 1) * 2] ∧
      CplxProjectionGainLayer.forward id ⟨fun _ => ⟨[2], [1, 1]⟩, id⟩
        ⟨⟨[2], [1, 2]⟩, ⟨[2], [5, 7]⟩⟩ = .ok (id ⟨cre, cim⟩)) ∧
    CplxProjectionGainLayer.forward (α := Int) id ⟨fun _ => ⟨[2], [1, 1]⟩, id⟩
        ⟨⟨[2], [1, 2]⟩, ⟨[2], [5, 7]⟩⟩ =
      .ok ⟨⟨[4], [1, 2, 1, 2]⟩, ⟨[4], [5, 7, 5, 7]⟩⟩ :=
  ⟨rfl, C2_concat_project id _ id [] 2 1 _ rfl rfl (by decide) (by decide) rfl, rfl⟩
